import Mathlib

/-
  Verification of the temporal-inference engine of `treetime/clock_tree.py`
  (class `ClockTree`): date-constraint initialization, the two
  message-passing passes, finalization and calendar conversion.

  Distributions are embedded as a syntax tree of the operations the engine
  applies (`delta_function`, `shifted_x`, `x_rescale`, `convolve`,
  `multiply`, and opaque per-edge branch-length interpolators); the Python
  value `None`, which flows through the same attributes, is the `pynone`
  constructor.  The tree is a rose tree of node ids; per-node attributes
  live in a store `ℕ → NodeData`, and each pass is a fold of its loop body
  over the corresponding Biopython traversal order.
-/

namespace ClockTree

/-- Distribution values as built by the engine: `pynone` is Python's `None`,
`delta` is `NodeInterpolator.delta_function(pos, weight)`, `interp i` is the
opaque `BranchLenInterpolator` object built for the edge above node `i`, and
the remaining constructors record the `Distribution`/`NodeInterpolator`
operations applied, including the `inverse_time` flag of `convolve`. -/
inductive Dist where
  | pynone
  | delta (pos : ℚ) (weight : ℚ)
  | interp (id : ℕ)
  | shifted_x (d : Dist) (dx : ℚ)
  | x_rescale (d : Dist) (alpha : ℚ)
  | convolve (a : Dist) (b : Dist) (inverse_time : Bool)
  | multiply (args : List Dist)
deriving Repr

mutual
/-- Boolean structural equality on distribution values. -/
def Dist.beq : Dist → Dist → Bool
  | .pynone, .pynone => true
  | .delta p w, .delta p' w' => p == p' && w == w'
  | .interp i, .interp i' => i == i'
  | .shifted_x d dx, .shifted_x d' dx' => Dist.beq d d' && dx == dx'
  | .x_rescale d a, .x_rescale d' a' => Dist.beq d d' && a == a'
  | .convolve a b f, .convolve a' b' f' => Dist.beq a a' && (Dist.beq b b' && f == f')
  | .multiply xs, .multiply ys => Dist.beqList xs ys
  | _, _ => false
def Dist.beqList : List Dist → List Dist → Bool
  | [], [] => true
  | x :: xs, y :: ys => Dist.beq x y && Dist.beqList xs ys
  | _, _ => false
end

mutual
theorem Dist.beq_iff : ∀ a b : Dist, (Dist.beq a b = true) ↔ a = b
  | .pynone, b => by cases b <;> simp [Dist.beq]
  | .delta p w, b => by cases b <;> simp [Dist.beq]
  | .interp i, b => by cases b <;> simp [Dist.beq]
  | .shifted_x d dx, b => by
      cases b <;> simp [Dist.beq, Dist.beq_iff d]
  | .x_rescale d a, b => by
      cases b <;> simp [Dist.beq, Dist.beq_iff d]
  | .convolve a c f, b => by
      cases b <;> simp [Dist.beq, Dist.beq_iff a, Dist.beq_iff c]
  | .multiply xs, b => by
      cases b <;> simp [Dist.beq, Dist.beqList_iff xs]
theorem Dist.beqList_iff : ∀ xs ys : List Dist, (Dist.beqList xs ys = true) ↔ xs = ys
  | [], ys => by cases ys <;> simp [Dist.beqList]
  | x :: xs, ys => by
      cases ys <;> simp [Dist.beqList, Dist.beq_iff x, Dist.beqList_iff xs]
end

instance : DecidableEq Dist :=
  fun a b => decidable_of_iff (Dist.beq a b = true) (Dist.beq_iff a b)

/-- Test of `Distribution.is_delta`: true exactly on delta functions. -/
def Dist.is_delta : Dist → Bool
  | .delta _ _ => true
  | _ => false

/-- Log messages the modelled code can emit: the `print` in
`init_date_constraints` for a dated node marked bad, and the two
`self.logger(..., warn=True)` calls of `convert_dates`. -/
inductive LogMsg where
  | badBranchExcluded
  | laterThanTodayError
  | laterThanTodayBadWarn
deriving Repr, DecidableEq

/-- Per-node attributes attached by the engine (Python object attributes).
Unset distribution attributes are `Dist.pynone`; unset numeric attributes
are `none`. -/
structure NodeData where
  numdate_given : Option ℚ := none
  bad_branch : Bool := false
  abs_t : Option ℚ := none
  branch_length_interpolator : Dist := .pynone
  msg_to_parent : Dist := .pynone
  msgs_from_leaves : List (ℕ × Dist) := []
  msg_from_parent : Dist := .pynone
  marginal_lh : Dist := .pynone
  joint_lh : Dist := .pynone
  time_before_present : Option ℚ := none
  branch_length : Option ℚ := none
  clock_length : Option ℚ := none
  numdate : Option ℚ := none
deriving Repr, DecidableEq

/-- Rose tree of node ids, the topology the engine walks. -/
inductive PTree where
  | mk (id : ℕ) (children : List PTree)
deriving Repr

def PTree.id : PTree → ℕ
  | .mk i _ => i

def PTree.children : PTree → List PTree
  | .mk _ cs => cs

/-- Ids of the direct children (`node.clades` in Biopython). -/
def PTree.childIds (t : PTree) : List ℕ := t.children.map PTree.id

mutual
/-- All node ids of the tree, root first. -/
def PTree.nodes : PTree → List ℕ
  | .mk i cs => i :: PTree.nodesList cs
def PTree.nodesList : List PTree → List ℕ
  | [] => []
  | c :: cs => c.nodes ++ PTree.nodesList cs
end

/-- Occurrence of a subtree: `OccA par t q v` holds when the subtree `v`
occurs inside `t`, the id of `v`'s parent node is `q` (`none` for the
root), and `t` itself hangs below a node of id `par` (`none` when `t` is
the whole tree). -/
inductive OccA : Option ℕ → PTree → Option ℕ → PTree → Prop
  | here (par : Option ℕ) (t : PTree) : OccA par t par t
  | deeper {par : Option ℕ} {t c : PTree} {q : Option ℕ} {v : PTree} :
      c ∈ t.children → OccA (some t.id) c q v → OccA par t q v

/-- Store of per-node attributes, indexed by node id. -/
abbrev Store := ℕ → NodeData

/-- Engine state: the store plus the log of warnings printed so far. -/
abbrev EState := Store × List LogMsg

/-- Loop body of a traversal: parent id (`node.up`), node id, child ids. -/
abbrev Step := Option ℕ → ℕ → List ℕ → EState → EState

/-- Update of one node's attribute record. -/
def setN (s : Store) (i : ℕ) (d : NodeData) : Store :=
  fun j => if j = i then d else s j

mutual
/-- Fold of a loop body over `find_clades(order='preorder')`: ancestors
first, then the children subtrees left to right. -/
def preFold (f : Step) (par : Option ℕ) : PTree → EState → EState
  | .mk i cs, st => preFoldList f i cs (f par i (cs.map PTree.id) st)
def preFoldList (f : Step) (p : ℕ) : List PTree → EState → EState
  | [], st => st
  | c :: cs, st => preFoldList f p cs (preFold f (some p) c st)
end

mutual
/-- Fold of a loop body over `find_clades(order='postorder')`: children
subtrees left to right first, then the node itself. -/
def postFold (f : Step) (par : Option ℕ) : PTree → EState → EState
  | .mk i cs, st => f par i (cs.map PTree.id) (postFoldList f i cs st)
def postFoldList (f : Step) (p : ℕ) : List PTree → EState → EState
  | [], st => st
  | c :: cs, st => postFoldList f p cs (postFold f (some p) c st)
end

/-- Scalar parameters of an engine run: the distribution peak extractor
(the `peak_pos` attribute), the fitted calibration `slope` and
`intercept` of `date2dist`, `utils.numeric_date()` frozen at `now`, and
the `one_mutation` scale. -/
structure Params where
  peak : Dist → ℚ
  slope : ℚ
  intercept : ℚ
  now : ℚ
  one_mutation : ℚ

/-- Loop body of the first `find_clades` loop of `init_date_constraints`
(lines 63-67): non-root nodes get a fresh `BranchLenInterpolator`, the
root gets `None`. -/
def bliStep : Step := fun par i _ st =>
  let d := st.1 i
  match par with
  | some _ => (setN st.1 i { d with branch_length_interpolator := .interp i }, st.2)
  | none => (setN st.1 i { d with branch_length_interpolator := .pynone }, st.2)

/-- Loop body of the second `find_clades` loop of `init_date_constraints`
(lines 72-91): a dated node marked bad is demoted with a printed warning;
a dated good node gets `abs_t = (now - date) * |slope|` and a delta
message of weight 1; an undated node has the attributes cleared. -/
def dateStep (P : Params) : Step := fun _ i _ st =>
  let d := st.1 i
  match d.numdate_given with
  | some dd =>
    if d.bad_branch then
      (setN st.1 i { d with numdate_given := none, abs_t := none, msg_to_parent := .pynone },
       st.2 ++ [.badBranchExcluded])
    else
      let t := (P.now - dd) * |P.slope|
      (setN st.1 i { d with abs_t := some t, msg_to_parent := .delta t 1 }, st.2)
  | none =>
    (setN st.1 i { d with numdate_given := none, abs_t := none, msg_to_parent := .pynone }, st.2)

/-- Function `init_date_constraints` restricted to its two node loops (the
calibration fit itself lives in `utils.DateConversion` and enters only
through `Params`). -/
def init_date_constraints (P : Params) (t : PTree) (st : EState) : EState :=
  preFold (dateStep P) none t (preFold bliStep none t st)

/-- Helper `_send_message` of `_ml_t_leaves_root`: a delta message moves
the branch-length interpolator by its peak position, any other message is
convolved with the interpolator. -/
def sendMessage (peak : Dist → ℚ) (cd : NodeData) : Dist :=
  if cd.msg_to_parent.is_delta then
    Dist.shifted_x cd.branch_length_interpolator (peak cd.msg_to_parent)
  else
    Dist.convolve cd.msg_to_parent cd.branch_length_interpolator false

/-- Dictionary comprehension of `_ml_t_leaves_root` line 147: one entry per
child whose `msg_to_parent` is not `None`, keyed by the child. -/
def gatherMsgs (peak : Dist → ℚ) (s : Store) (cs : List ℕ) : List (ℕ × Dist) :=
  cs.filterMap fun c =>
    if (s c).msg_to_parent ≠ Dist.pynone then some (c, sendMessage peak (s c)) else none

/-- Loop body of `_ml_t_leaves_root` (lines 140-153). -/
def upStep (P : Params) : Step := fun _ i cs st =>
  let d := st.1 i
  if cs.isEmpty then
    (setN st.1 i { d with msgs_from_leaves := [] }, st.2)
  else
    let msgs := gatherMsgs P.peak st.1 cs
    if msgs.isEmpty then
      (setN st.1 i { d with msgs_from_leaves := msgs }, st.2)
    else
      (setN st.1 i { d with msgs_from_leaves := msgs,
                            msg_to_parent := .multiply (msgs.map Prod.snd) }, st.2)

/-- Function `_ml_t_leaves_root`: the upward (leaves to root) pass. -/
def ml_t_leaves_root (P : Params) (t : PTree) (st : EState) : EState :=
  postFold (upStep P) none t st

/-- Complementary messages gathered for a child `i` in `_ml_t_root_leaves`
(lines 185-190): the parent's stored child messages except the one keyed
by `i`, with the parent's own `msg_from_parent` appended when not `None`. -/
def complMsgs (pd : NodeData) (i : ℕ) : List Dist :=
  (pd.msgs_from_leaves.filter fun kv => kv.1 ≠ i).map Prod.snd
    ++ (if pd.msg_from_parent ≠ Dist.pynone then [pd.msg_from_parent] else [])

/-- Loop body of `_ml_t_root_leaves` (lines 179-195); note the literal
`inverse_time=False` of line 194. -/
def downStep : Step := fun par i _ st =>
  let d := st.1 i
  match par with
  | none => (setN st.1 i { d with msg_from_parent := .pynone }, st.2)
  | some p =>
    let m := Dist.multiply (complMsgs (st.1 p) i)
    (setN st.1 i
      { d with msg_from_parent := .convolve m d.branch_length_interpolator false }, st.2)

/-- Function `_ml_t_root_leaves`: the downward (root to leaves) pass. -/
def ml_t_root_leaves (t : PTree) (st : EState) : EState :=
  preFold downStep none t st

/-- Joint posterior of a non-root node in `_set_final_dates` (lines
233-239), as a function of the node's attributes and the parent's
`time_before_present`. -/
def jointOf (d : NodeData) (tp : ℚ) : Dist :=
  let res := Dist.x_rescale (Dist.shifted_x d.branch_length_interpolator (-tp)) (-1)
  if d.msg_to_parent ≠ Dist.pynone then Dist.multiply [d.msg_to_parent, res] else res

/-- Loop body of `_set_final_dates` (lines 217-243): `collapse_func`
returns `peak_pos` in both of its branches, and `clock_length` is set to
`branch_length` for root and non-root alike. -/
def finalStep (P : Params) : Step := fun par i _ st =>
  let d := st.1 i
  match par with
  | none =>
    let d1 := { d with marginal_lh := d.msg_to_parent,
                       joint_lh := d.msg_to_parent,
                       time_before_present := some (P.peak d.msg_to_parent),
                       branch_length := some P.one_mutation }
    (setN st.1 i { d1 with clock_length := d1.branch_length }, st.2)
  | some p =>
    let tp := (st.1 p).time_before_present.getD 0
    let joint := jointOf d tp
    let tn := P.peak joint
    let d1 := { d with marginal_lh := Dist.multiply [d.msg_from_parent, d.msg_to_parent],
                       joint_lh := joint,
                       time_before_present := some tn,
                       branch_length := some (tp - tn) }
    (setN st.1 i { d1 with clock_length := d1.branch_length }, st.2)

/-- Function `_set_final_dates`: the finalization pass. -/
def set_final_dates (P : Params) (t : PTree) (st : EState) : EState :=
  preFold (finalStep P) none t st

/-- Modelled from the spec: `utils.DateConversion.get_date` is not part of
`clock_tree.py`; per spec §4.3 it is `get_date(t) = (intercept - t) / |slope|`,
returning years before present. -/
def get_date (P : Params) (t : ℚ) : ℚ := (P.intercept - t) / |P.slope|

/-- Loop body of `convert_dates` (lines 250-261), without the cosmetic
calendar-string rendering: a negative `years_bp` is logged (error for a
non-bad node, warning for a bad one) and `numdate = now - years_bp` is
set unconditionally. -/
def convertStep (P : Params) : Step := fun _ i _ st =>
  let d := st.1 i
  let years_bp := get_date P (d.time_before_present.getD 0)
  let log2 :=
    if years_bp < 0 then
      if d.bad_branch = false then st.2 ++ [.laterThanTodayError]
      else st.2 ++ [.laterThanTodayBadWarn]
    else st.2
  (setN st.1 i { d with numdate := some (P.now - years_bp) }, log2)

/-- Function `convert_dates`, modulo the date-string formatting. -/
def convert_dates (P : Params) (t : PTree) (st : EState) : EState :=
  preFold (convertStep P) none t st

/-- Sequence of the four passes that `make_time_tree` is meant to run on
one tree: up, down, finalize, convert. -/
def time_tree_passes (P : Params) (t : PTree) (st : EState) : EState :=
  convert_dates P t (set_final_dates P t (ml_t_root_leaves t (ml_t_leaves_root P t st)))

/-- One ClockTree instance: its parameters, its own tree and node store. -/
structure Instance where
  params : Params
  tree : PTree
  store : Store

/-- Intended behaviour of `make_time_tree`: run the four passes on the
instance's own tree. -/
def make_time_tree_spec (c : Instance) : EState :=
  time_tree_passes c.params c.tree (c.store, [])

/-- Function `make_time_tree` as written (lines 93-101): every pass is
invoked on the module-global `myTree`, never on `self`; when no global
`myTree` is bound (the module imported rather than run as a script) the
call raises `NameError`, modelled as `Except.error`. -/
def make_time_tree (myTree : Option Instance) (self : Instance) : Except Unit EState :=
  match myTree with
  | none => Except.error ()
  | some g => Except.ok (time_tree_passes g.params g.tree (g.store, []))

/-! Structural facts about trees and occurrences. -/

@[simp]
theorem PTree.nodes_mk (i : ℕ) (cs : List PTree) :
    PTree.nodes (.mk i cs) = i :: PTree.nodesList cs := by
  rw [PTree.nodes]

@[simp]
theorem PTree.nodesList_nil : PTree.nodesList [] = [] := by
  rw [PTree.nodesList]

@[simp]
theorem PTree.nodesList_cons (c : PTree) (cs : List PTree) :
    PTree.nodesList (c :: cs) = c.nodes ++ PTree.nodesList cs := by
  rw [PTree.nodesList]

@[simp]
theorem PTree.id_mk (i : ℕ) (cs : List PTree) : PTree.id (.mk i cs) = i := rfl

@[simp]
theorem PTree.children_mk (i : ℕ) (cs : List PTree) :
    PTree.children (.mk i cs) = cs := rfl

theorem PTree.id_mem_nodes (t : PTree) : t.id ∈ t.nodes := by
  cases t with
  | mk i cs => simp

theorem PTree.nodes_sublist_of_mem {c : PTree} :
    ∀ {cs : List PTree}, c ∈ cs → c.nodes.Sublist (PTree.nodesList cs)
  | c' :: cs', h => by
    rcases List.mem_cons.mp h with h | h
    · subst h
      simpa using List.sublist_append_left c.nodes (PTree.nodesList cs')
    · refine (PTree.nodes_sublist_of_mem h).trans ?_
      simpa using List.sublist_append_right c'.nodes (PTree.nodesList cs')

theorem PTree.childIds_subset (t : PTree) :
    ∀ x ∈ t.childIds, x ∈ PTree.nodesList t.children := by
  intro x hx
  rcases List.mem_map.mp hx with ⟨c, hc, rfl⟩
  exact (PTree.nodes_sublist_of_mem hc).mem (PTree.id_mem_nodes c)

theorem PTree.children_sublist (t : PTree) {c : PTree} (hc : c ∈ t.children) :
    c.nodes.Sublist t.nodes := by
  cases t with
  | mk i cs =>
    simp only [PTree.children_mk] at hc
    exact (PTree.nodes_sublist_of_mem hc).trans (by simp)

theorem OccA.nodes_sublist {par q : Option ℕ} {t v : PTree} (h : OccA par t q v) :
    v.nodes.Sublist t.nodes := by
  induction h with
  | here _ t => exact List.Sublist.refl _
  | @deeper par t c q v hc _ ih => exact ih.trans (t.children_sublist hc)

theorem OccA.id_mem {par q : Option ℕ} {t v : PTree} (h : OccA par t q v) :
    v.id ∈ t.nodes :=
  h.nodes_sublist.mem v.id_mem_nodes

theorem OccA.nodup {par q : Option ℕ} {t v : PTree} (h : OccA par t q v)
    (hnd : t.nodes.Nodup) : v.nodes.Nodup :=
  hnd.sublist h.nodes_sublist

theorem OccA.par_cases {par q : Option ℕ} {t v : PTree} (h : OccA par t q v) :
    q = par ∨ ∃ r, q = some r ∧ r ∈ t.nodes := by
  induction h with
  | here _ _ => exact Or.inl rfl
  | @deeper par t c q v hc h' ih =>
    right
    rcases ih with h | ⟨r, rfl, hr⟩
    · subst h
      exact ⟨t.id, rfl, t.id_mem_nodes⟩
    · exact ⟨r, rfl, (t.children_sublist hc).mem hr⟩

theorem OccA.q_ne {par q : Option ℕ} {t v : PTree} (h : OccA par t q v)
    (hpar : ∀ r, par = some r → r ∉ t.nodes) (hnd : t.nodes.Nodup) :
    q ≠ some v.id := by
  induction h with
  | here p t =>
    intro hq
    exact hpar _ hq t.id_mem_nodes
  | @deeper par t c q v hc h' ih =>
    apply ih
    · intro r hr hmem
      cases Option.some.inj hr
      cases t with
      | mk i cs =>
        have hi : i ∉ PTree.nodesList cs := by
          have := hnd
          simp only [PTree.nodes_mk, List.nodup_cons] at this
          exact this.1
        simp only [PTree.children_mk] at hc
        simp only [PTree.id_mk] at hmem
        exact hi ((PTree.nodes_sublist_of_mem hc).mem hmem)
    · exact hnd.sublist (t.children_sublist hc)

/-! Generic lemmas about traversal folds.  Each loop body of the engine
only writes the attributes of the node it visits, reads at most its own,
its parent's (preorder passes) or its children's (postorder pass)
attributes, and appends to the log. -/

/-- Body writes only the visited node's entry. -/
def LocalStep (f : Step) : Prop :=
  ∀ p i cs st j, j ≠ i → (f p i cs st).1 j = st.1 j

/-- Body's write to the visited node depends only on the parent's and the
node's own entries (never on the log). -/
def ParentSelfDep (f : Step) : Prop :=
  ∀ p i cs st st', (∀ r, p = some r → st.1 r = st'.1 r) → st.1 i = st'.1 i →
    (f p i cs st).1 i = (f p i cs st').1 i

/-- Body's write to the visited node depends only on the children's and the
node's own entries (never on the log). -/
def ChildSelfDep (f : Step) : Prop :=
  ∀ p i cs st st', (∀ c ∈ cs, st.1 c = st'.1 c) → st.1 i = st'.1 i →
    (f p i cs st).1 i = (f p i cs st').1 i

/-- Body never removes log entries. -/
def LogMono (f : Step) : Prop :=
  ∀ p i cs st x, x ∈ st.2 → x ∈ (f p i cs st).2

/-- Body never logs. -/
def LogConst (f : Step) : Prop :=
  ∀ p i cs st, (f p i cs st).2 = st.2

/-- Store in which the parent entry `q` carries its final value and every
other entry its initial value. -/
def mixS (s : Store) (q : Option ℕ) (fin : Store) : Store :=
  fun j => if q = some j then fin j else s j

/-- Store in which the child entries carry their final values and every
other entry its initial value. -/
def mixC (s : Store) (cs : List ℕ) (fin : Store) : Store :=
  fun j => if j ∈ cs then fin j else s j

mutual
theorem preFold_frame {f : Step} (hl : LocalStep f) (par : Option ℕ) (t : PTree)
    (st : EState) (j : ℕ) (hj : j ∉ t.nodes) : (preFold f par t st).1 j = st.1 j := by
  cases t with
  | mk i cs =>
    have hji : j ≠ i := fun h => hj (h ▸ by simp)
    have hjl : j ∉ PTree.nodesList cs := fun h => hj (by simp [h])
    rw [preFold, preFoldList_frame hl i cs _ j hjl]
    exact hl par i _ st j hji
theorem preFoldList_frame {f : Step} (hl : LocalStep f) (p : ℕ) (cs : List PTree)
    (st : EState) (j : ℕ) (hj : j ∉ PTree.nodesList cs) :
    (preFoldList f p cs st).1 j = st.1 j := by
  cases cs with
  | nil => rw [preFoldList]
  | cons c cs' =>
    have hjc : j ∉ c.nodes := fun h => hj (by simp [h])
    have hjl : j ∉ PTree.nodesList cs' := fun h => hj (by simp [h])
    rw [preFoldList, preFoldList_frame hl p cs' _ j hjl]
    exact preFold_frame hl (some p) c st j hjc
end

mutual
theorem postFold_frame {f : Step} (hl : LocalStep f) (par : Option ℕ) (t : PTree)
    (st : EState) (j : ℕ) (hj : j ∉ t.nodes) : (postFold f par t st).1 j = st.1 j := by
  cases t with
  | mk i cs =>
    have hji : j ≠ i := fun h => hj (h ▸ by simp)
    have hjl : j ∉ PTree.nodesList cs := fun h => hj (by simp [h])
    rw [postFold, hl par i _ _ j hji]
    exact postFoldList_frame hl i cs st j hjl
theorem postFoldList_frame {f : Step} (hl : LocalStep f) (p : ℕ) (cs : List PTree)
    (st : EState) (j : ℕ) (hj : j ∉ PTree.nodesList cs) :
    (postFoldList f p cs st).1 j = st.1 j := by
  cases cs with
  | nil => rw [postFoldList]
  | cons c cs' =>
    have hjc : j ∉ c.nodes := fun h => hj (by simp [h])
    have hjl : j ∉ PTree.nodesList cs' := fun h => hj (by simp [h])
    rw [postFoldList, postFoldList_frame hl p cs' _ j hjl]
    exact postFold_frame hl (some p) c st j hjc
end

mutual
theorem preFold_logmono {f : Step} (hm : LogMono f) (par : Option ℕ) (t : PTree)
    (st : EState) (x : LogMsg) (hx : x ∈ st.2) : x ∈ (preFold f par t st).2 := by
  cases t with
  | mk i cs =>
    rw [preFold]
    exact preFoldList_logmono hm i cs _ x (hm par i _ st x hx)
theorem preFoldList_logmono {f : Step} (hm : LogMono f) (p : ℕ) (cs : List PTree)
    (st : EState) (x : LogMsg) (hx : x ∈ st.2) : x ∈ (preFoldList f p cs st).2 := by
  cases cs with
  | nil => rw [preFoldList]; exact hx
  | cons c cs' =>
    rw [preFoldList]
    exact preFoldList_logmono hm p cs' _ x (preFold_logmono hm (some p) c st x hx)
end

mutual
theorem preFold_logconst {f : Step} (hc : LogConst f) (par : Option ℕ) (t : PTree)
    (st : EState) : (preFold f par t st).2 = st.2 := by
  cases t with
  | mk i cs =>
    rw [preFold, preFoldList_logconst hc i cs _]
    exact hc par i _ st
theorem preFoldList_logconst {f : Step} (hc : LogConst f) (p : ℕ) (cs : List PTree)
    (st : EState) : (preFoldList f p cs st).2 = st.2 := by
  cases cs with
  | nil => rw [preFoldList]
  | cons c cs' =>
    rw [preFoldList, preFoldList_logconst hc p cs' _]
    exact preFold_logconst hc (some p) c st
end

mutual
theorem postFold_logconst {f : Step} (hc : LogConst f) (par : Option ℕ) (t : PTree)
    (st : EState) : (postFold f par t st).2 = st.2 := by
  cases t with
  | mk i cs =>
    rw [postFold, hc par i _ _]
    exact postFoldList_logconst hc i cs st
theorem postFoldList_logconst {f : Step} (hc : LogConst f) (p : ℕ) (cs : List PTree)
    (st : EState) : (postFoldList f p cs st).2 = st.2 := by
  cases cs with
  | nil => rw [postFoldList]
  | cons c cs' =>
    rw [postFoldList, postFoldList_logconst hc p cs' _]
    exact postFold_logconst hc (some p) c st
end

@[simp]
theorem PTree.childIds_mk (i : ℕ) (cs : List PTree) :
    PTree.childIds (.mk i cs) = cs.map PTree.id := rfl

mutual
/-- Characterization of a preorder pass: the final entry of every visited
node equals the loop body applied to a store in which the node's parent
carries its final attributes and the node itself its initial ones. -/
theorem preFold_visit {f : Step} (hl : LocalStep f) (hd : ParentSelfDep f)
    (t : PTree) (par : Option ℕ) (st : EState) (hnd : t.nodes.Nodup)
    (hpar : ∀ r, par = some r → r ∉ t.nodes) {q : Option ℕ} {v : PTree}
    (ho : OccA par t q v) :
    (preFold f par t st).1 v.id
      = (f q v.id v.childIds (mixS st.1 q (preFold f par t st).1, [])).1 v.id := by
  cases t with
  | mk i cs =>
    have hnotin : i ∉ PTree.nodesList cs := by
      simp only [PTree.nodes_mk, List.nodup_cons] at hnd
      exact hnd.1
    cases ho with
    | here =>
      have hfin : (preFold f par (.mk i cs) st).1 i = (f par i (cs.map PTree.id) st).1 i := by
        rw [preFold]
        exact preFoldList_frame hl i cs _ i hnotin
      simp only [PTree.id_mk, PTree.childIds_mk] at hfin ⊢
      rw [hfin]
      apply hd
      · intro r hr
        have hrn : r ∉ (PTree.mk i cs).nodes := hpar r hr
        have hfr : (preFold f par (.mk i cs) st).1 r = st.1 r := preFold_frame hl par _ st r hrn
        simp only [mixS]
        rw [if_pos hr]
        exact hfr.symm
      · have hne : par ≠ some i := fun h => hpar i h (by simp)
        simp only [mixS]
        rw [if_neg hne]
    | @deeper _ _ c _ _ hc ho' =>
      simp only [PTree.children_mk] at hc
      simp only [PTree.id_mk] at ho'
      have hndl : (i :: PTree.nodesList cs).Nodup := by
        simpa using hnd
      have hlist := preFoldList_visit hl hd cs i (f par i (cs.map PTree.id) st) hndl hc ho'
      rw [preFold]
      rw [hlist]
      apply hd
      · intro r hr
        subst hr
        simp [mixS]
      · have hiq : i ∉ c.nodes := fun h => hnotin ((PTree.nodes_sublist_of_mem hc).mem h)
        have hqne : q ≠ some v.id :=
          ho'.q_ne (fun r hr => by cases Option.some.inj hr; exact hiq)
            (hnd.sublist ((PTree.nodes_sublist_of_mem hc).trans (by simp)))
        have hvne : v.id ≠ i := by
          intro h
          exact hiq (h ▸ ho'.id_mem)
        simp only [mixS]
        rw [if_neg (by simpa [eq_comm] using hqne), if_neg (by simpa [eq_comm] using hqne)]
        exact hl par i _ st v.id hvne
theorem preFoldList_visit {f : Step} (hl : LocalStep f) (hd : ParentSelfDep f)
    (cs : List PTree) (i : ℕ) (st : EState) (hnd : (i :: PTree.nodesList cs).Nodup)
    {c : PTree} (hc : c ∈ cs) {q : Option ℕ} {v : PTree}
    (ho : OccA (some i) c q v) :
    (preFoldList f i cs st).1 v.id
      = (f q v.id v.childIds (mixS st.1 q (preFoldList f i cs st).1, [])).1 v.id := by
  cases cs with
  | nil => exact absurd hc (List.not_mem_nil c)
  | cons c0 cs' =>
    simp only [PTree.nodesList_cons] at hnd
    have hcons := List.nodup_cons.mp hnd
    have hnd' : ((c0.nodes ++ PTree.nodesList cs').Nodup) := hcons.2
    have hi : i ∉ c0.nodes ∧ i ∉ PTree.nodesList cs' := by
      have hiapp := hcons.1
      simp only [List.mem_append] at hiapp
      exact ⟨fun h => hiapp (Or.inl h), fun h => hiapp (Or.inr h)⟩
    have hnd0 : c0.nodes.Nodup := (List.nodup_append.mp hnd').1
    have hnds' : (PTree.nodesList cs').Nodup := (List.nodup_append.mp hnd').2.1
    have hdisj : ∀ x ∈ c0.nodes, x ∉ PTree.nodesList cs' := by
      intro x hx
      exact (List.nodup_append.mp hnd').2.2 hx
    rcases List.mem_cons.mp hc with rfl | hc'
    · -- v lies in the first child subtree
      have hvm : v.id ∈ c.nodes := ho.id_mem
      have hvn : v.id ∉ PTree.nodesList cs' := hdisj v.id hvm
      have hfr : (preFoldList f i (c :: cs') st).1 v.id
          = (preFold f (some i) c st).1 v.id := by
        rw [preFoldList]
        exact preFoldList_frame hl i cs' _ v.id hvn
      have htree := preFold_visit hl hd c (some i) st hnd0
        (fun r hr => by cases Option.some.inj hr; exact hi.1) ho
      rw [hfr, htree]
      apply hd
      · intro r hr
        subst hr
        simp only [mixS, if_pos rfl]
        have hr_loc : r ∉ PTree.nodesList cs' := by
          rcases ho.par_cases with h | ⟨r', hr', hr'm⟩
          · cases Option.some.inj h
            exact hi.2
          · cases Option.some.inj hr'
            exact hdisj r hr'm
        rw [preFoldList]
        exact (preFoldList_frame hl i cs' _ r hr_loc).symm
      · have hqne : q ≠ some v.id :=
          ho.q_ne (fun r hr => by cases Option.some.inj hr; exact hi.1) hnd0
        simp only [mixS]
        rw [if_neg (by simpa [eq_comm] using hqne), if_neg (by simpa [eq_comm] using hqne)]
    · -- v lies in a later sibling subtree
      have hndtail : (i :: PTree.nodesList cs').Nodup :=
        List.nodup_cons.mpr ⟨hi.2, hnds'⟩
      have hih := preFoldList_visit hl hd cs' i (preFold f (some i) c0 st) hndtail hc' ho
      rw [preFoldList]
      rw [hih]
      apply hd
      · intro r hr
        subst hr
        simp [mixS]
      · have hvm : v.id ∈ c.nodes := ho.id_mem
        have hvnc0 : v.id ∉ c0.nodes := by
          intro h
          exact hdisj v.id h ((PTree.nodes_sublist_of_mem hc').mem hvm)
        have hic : i ∉ c.nodes := fun h => hi.2 ((PTree.nodes_sublist_of_mem hc').mem h)
        have hqne : q ≠ some v.id :=
          ho.q_ne (fun r hr => by cases Option.some.inj hr; exact hic)
            (hnds'.sublist (PTree.nodes_sublist_of_mem hc'))
        simp only [mixS]
        rw [if_neg (by simpa [eq_comm] using hqne), if_neg (by simpa [eq_comm] using hqne)]
        exact preFold_frame hl (some i) c0 st v.id hvnc0
end

theorem PTree.id_not_mem_childIds {v : PTree} (h : v.nodes.Nodup) : v.id ∉ v.childIds := by
  cases v with
  | mk j ds =>
    intro hmem
    have h1 : j ∈ PTree.nodesList ds := PTree.childIds_subset (.mk j ds) j hmem
    have h2 : j ∉ PTree.nodesList ds := by
      simp only [PTree.nodes_mk, List.nodup_cons] at h
      exact h.1
    exact h2 h1

theorem PTree.childIds_subset_nodes {v : PTree} : ∀ x ∈ v.childIds, x ∈ v.nodes := by
  intro x hx
  cases v with
  | mk j ds => exact List.mem_cons_of_mem j (PTree.childIds_subset (.mk j ds) x hx)

mutual
/-- Characterization of the postorder pass: the final entry of every
visited node equals the loop body applied to a store in which the node's
children carry their final attributes and the node itself its initial
ones. -/
theorem postFold_visit {f : Step} (hl : LocalStep f) (hd : ChildSelfDep f)
    (t : PTree) (par : Option ℕ) (st : EState) (hnd : t.nodes.Nodup)
    {q : Option ℕ} {v : PTree} (ho : OccA par t q v) :
    (postFold f par t st).1 v.id
      = (f q v.id v.childIds (mixC st.1 v.childIds (postFold f par t st).1, [])).1 v.id := by
  cases t with
  | mk i cs =>
    have hnotin : i ∉ PTree.nodesList cs := by
      simp only [PTree.nodes_mk, List.nodup_cons] at hnd
      exact hnd.1
    cases ho with
    | here =>
      rw [postFold]
      simp only [PTree.id_mk, PTree.childIds_mk]
      apply hd
      · intro c' hc'
        have hcn : c' ∈ PTree.nodesList cs := PTree.childIds_subset (.mk i cs) c' hc'
        have hj : c' ≠ i := fun h => hnotin (h ▸ hcn)
        simp only [mixC]
        rw [if_pos hc']
        exact (hl par i _ _ c' hj).symm
      · have hnic : i ∉ List.map PTree.id cs := by
          intro h
          exact hnotin (PTree.childIds_subset (.mk i cs) i h)
        simp only [mixC]
        rw [if_neg hnic]
        exact postFoldList_frame hl i cs st i hnotin
    | @deeper _ _ c _ _ hc ho' =>
      simp only [PTree.children_mk] at hc
      simp only [PTree.id_mk] at ho'
      have hndl : (i :: PTree.nodesList cs).Nodup := by simpa using hnd
      have hvm : v.id ∈ c.nodes := ho'.id_mem
      have hvin : v.id ∈ PTree.nodesList cs := (PTree.nodes_sublist_of_mem hc).mem hvm
      have hvne : v.id ≠ i := fun h => hnotin (h ▸ hvin)
      have hcnodup : c.nodes.Nodup :=
        ((List.nodup_cons.mp hndl).2).sublist (PTree.nodes_sublist_of_mem hc)
      have hvnodup : v.nodes.Nodup := ho'.nodup hcnodup
      have hlist := postFoldList_visit hl hd cs i st hndl hc ho'
      rw [postFold, hl par i (cs.map PTree.id) _ v.id hvne, hlist]
      apply hd
      · intro c' hc'
        have hc'v : c' ∈ v.nodes := PTree.childIds_subset_nodes c' hc'
        have hc'cs : c' ∈ PTree.nodesList cs :=
          (PTree.nodes_sublist_of_mem hc).mem (ho'.nodes_sublist.mem hc'v)
        have hc'ne : c' ≠ i := fun h => hnotin (h ▸ hc'cs)
        simp only [mixC]
        rw [if_pos hc', if_pos hc']
        exact (hl par i _ _ c' hc'ne).symm
      · have hnc : v.id ∉ v.childIds := PTree.id_not_mem_childIds hvnodup
        simp only [mixC]
        rw [if_neg hnc, if_neg hnc]
theorem postFoldList_visit {f : Step} (hl : LocalStep f) (hd : ChildSelfDep f)
    (cs : List PTree) (i : ℕ) (st : EState) (hnd : (i :: PTree.nodesList cs).Nodup)
    {c : PTree} (hc : c ∈ cs) {q : Option ℕ} {v : PTree}
    (ho : OccA (some i) c q v) :
    (postFoldList f i cs st).1 v.id
      = (f q v.id v.childIds (mixC st.1 v.childIds (postFoldList f i cs st).1, [])).1 v.id := by
  cases cs with
  | nil => exact absurd hc (List.not_mem_nil c)
  | cons c0 cs' =>
    simp only [PTree.nodesList_cons] at hnd
    have hcons := List.nodup_cons.mp hnd
    have hnd' : ((c0.nodes ++ PTree.nodesList cs').Nodup) := hcons.2
    have hi : i ∉ c0.nodes ∧ i ∉ PTree.nodesList cs' := by
      have hiapp := hcons.1
      simp only [List.mem_append] at hiapp
      exact ⟨fun h => hiapp (Or.inl h), fun h => hiapp (Or.inr h)⟩
    have hnd0 : c0.nodes.Nodup := (List.nodup_append.mp hnd').1
    have hnds' : (PTree.nodesList cs').Nodup := (List.nodup_append.mp hnd').2.1
    have hdisj : ∀ x ∈ c0.nodes, x ∉ PTree.nodesList cs' := by
      intro x hx
      exact (List.nodup_append.mp hnd').2.2 hx
    rcases List.mem_cons.mp hc with rfl | hc'
    · -- v lies in the first child subtree
      have hvm : v.id ∈ c.nodes := ho.id_mem
      have hvn : v.id ∉ PTree.nodesList cs' := hdisj v.id hvm
      have hfr : (postFoldList f i (c :: cs') st).1 v.id
          = (postFold f (some i) c st).1 v.id := by
        rw [postFoldList]
        exact postFoldList_frame hl i cs' _ v.id hvn
      have htree := postFold_visit hl hd c (some i) st hnd0 ho
      rw [hfr, htree]
      apply hd
      · intro c' hc'
        have hc'c : c' ∈ c.nodes := ho.nodes_sublist.mem (PTree.childIds_subset_nodes c' hc')
        have hc'n : c' ∉ PTree.nodesList cs' := hdisj c' hc'c
        simp only [mixC]
        rw [if_pos hc', if_pos hc']
        rw [postFoldList]
        exact (postFoldList_frame hl i cs' _ c' hc'n).symm
      · have hnc : v.id ∉ v.childIds := PTree.id_not_mem_childIds (ho.nodup hnd0)
        simp only [mixC]
        rw [if_neg hnc, if_neg hnc]
    · -- v lies in a later sibling subtree
      have hndtail : (i :: PTree.nodesList cs').Nodup :=
        List.nodup_cons.mpr ⟨hi.2, hnds'⟩
      have hih := postFoldList_visit hl hd cs' i (postFold f (some i) c0 st) hndtail hc' ho
      rw [postFoldList, hih]
      apply hd
      · intro c' hc'
        simp only [mixC]
        rw [if_pos hc', if_pos hc']
      · have hvm : v.id ∈ c.nodes := ho.id_mem
        have hvnc0 : v.id ∉ c0.nodes := fun h =>
          hdisj v.id h ((PTree.nodes_sublist_of_mem hc').mem hvm)
        have hnc : v.id ∉ v.childIds :=
          PTree.id_not_mem_childIds (ho.nodup (hnds'.sublist (PTree.nodes_sublist_of_mem hc')))
        simp only [mixC]
        rw [if_neg hnc, if_neg hnc]
        exact postFold_frame hl (some i) c0 st v.id hvnc0
end

mutual
/-- Carrying of a log message: when the loop body provably logs `m` at
node `v` given only `v`'s initial attributes, the whole preorder pass logs
`m`. -/
theorem preFold_logvisit {f : Step} (hl : LocalStep f) (hm : LogMono f)
    (t : PTree) (par : Option ℕ) (st : EState) (hnd : t.nodes.Nodup)
    {q : Option ℕ} {v : PTree} (ho : OccA par t q v) (m : LogMsg)
    (hstep : ∀ p cs st', st'.1 v.id = st.1 v.id → m ∈ (f p v.id cs st').2) :
    m ∈ (preFold f par t st).2 := by
  cases t with
  | mk i cs =>
    have hnotin : i ∉ PTree.nodesList cs := by
      simp only [PTree.nodes_mk, List.nodup_cons] at hnd
      exact hnd.1
    cases ho with
    | here =>
      rw [preFold]
      exact preFoldList_logmono hm i cs _ m (hstep par (cs.map PTree.id) st rfl)
    | @deeper _ _ c _ _ hc ho' =>
      simp only [PTree.children_mk] at hc
      simp only [PTree.id_mk] at ho'
      have hndl : (i :: PTree.nodesList cs).Nodup := by simpa using hnd
      have hvm : v.id ∈ c.nodes := ho'.id_mem
      have hvne : v.id ≠ i := fun h =>
        hnotin (h ▸ (PTree.nodes_sublist_of_mem hc).mem hvm)
      rw [preFold]
      apply preFoldList_logvisit hl hm cs i _ hndl hc ho' m
      intro p cs' st' hst'
      apply hstep
      rw [hst']
      exact hl par i _ st v.id hvne
theorem preFoldList_logvisit {f : Step} (hl : LocalStep f) (hm : LogMono f)
    (cs : List PTree) (i : ℕ) (st : EState) (hnd : (i :: PTree.nodesList cs).Nodup)
    {c : PTree} (hc : c ∈ cs) {q : Option ℕ} {v : PTree}
    (ho : OccA (some i) c q v) (m : LogMsg)
    (hstep : ∀ p cs' st', st'.1 v.id = st.1 v.id → m ∈ (f p v.id cs' st').2) :
    m ∈ (preFoldList f i cs st).2 := by
  cases cs with
  | nil => exact absurd hc (List.not_mem_nil c)
  | cons c0 cs' =>
    simp only [PTree.nodesList_cons] at hnd
    have hcons := List.nodup_cons.mp hnd
    have hnd' : ((c0.nodes ++ PTree.nodesList cs').Nodup) := hcons.2
    have hi : i ∉ c0.nodes ∧ i ∉ PTree.nodesList cs' := by
      have hiapp := hcons.1
      simp only [List.mem_append] at hiapp
      exact ⟨fun h => hiapp (Or.inl h), fun h => hiapp (Or.inr h)⟩
    have hnd0 : c0.nodes.Nodup := (List.nodup_append.mp hnd').1
    have hnds' : (PTree.nodesList cs').Nodup := (List.nodup_append.mp hnd').2.1
    have hdisj : ∀ x ∈ c0.nodes, x ∉ PTree.nodesList cs' := by
      intro x hx
      exact (List.nodup_append.mp hnd').2.2 hx
    rcases List.mem_cons.mp hc with rfl | hc'
    · rw [preFoldList]
      apply preFoldList_logmono hm i cs' _
      exact preFold_logvisit hl hm c (some i) st hnd0 ho m hstep
    · have hndtail : (i :: PTree.nodesList cs').Nodup :=
        List.nodup_cons.mpr ⟨hi.2, hnds'⟩
      have hvm : v.id ∈ c.nodes := ho.id_mem
      have hvnc0 : v.id ∉ c0.nodes := fun h =>
        hdisj v.id h ((PTree.nodes_sublist_of_mem hc').mem hvm)
      rw [preFoldList]
      apply preFoldList_logvisit hl hm cs' i _ hndtail hc' ho m
      intro p cs'' st' hst'
      apply hstep
      rw [hst']
      exact preFold_frame hl (some i) c0 st v.id hvnc0
end

mutual
theorem preFold_preserve {α : Type} {f : Step} {proj : NodeData → α}
    (hp : ∀ p i cs st j, proj ((f p i cs st).1 j) = proj (st.1 j))
    (par : Option ℕ) (t : PTree) (st : EState) (j : ℕ) :
    proj ((preFold f par t st).1 j) = proj (st.1 j) := by
  cases t with
  | mk i cs =>
    rw [preFold, preFoldList_preserve hp i cs _ j]
    exact hp par i _ st j
theorem preFoldList_preserve {α : Type} {f : Step} {proj : NodeData → α}
    (hp : ∀ p i cs st j, proj ((f p i cs st).1 j) = proj (st.1 j))
    (p : ℕ) (cs : List PTree) (st : EState) (j : ℕ) :
    proj ((preFoldList f p cs st).1 j) = proj (st.1 j) := by
  cases cs with
  | nil => rw [preFoldList]
  | cons c cs' =>
    rw [preFoldList, preFoldList_preserve hp p cs' _ j]
    exact preFold_preserve hp (some p) c st j
end

/-! Properties of the concrete loop bodies. -/

theorem bliStep_local : LocalStep bliStep := by
  intro p i cs st j hj
  cases p <;> simp [bliStep, setN, hj]

theorem bliStep_dep : ParentSelfDep bliStep := by
  intro p i cs st st' hp hi
  cases p <;> simp [bliStep, setN, hi]

theorem bliStep_logconst : LogConst bliStep := by
  intro p i cs st
  cases p <;> simp [bliStep]

theorem dateStep_local (P : Params) : LocalStep (dateStep P) := by
  intro p i cs st j hj
  simp only [dateStep]
  cases h : (st.1 i).numdate_given with
  | none => simp [setN, hj]
  | some dd => by_cases hb : (st.1 i).bad_branch <;> simp [hb, setN, hj]

theorem dateStep_dep (P : Params) : ParentSelfDep (dateStep P) := by
  intro p i cs st st' hp hi
  simp only [dateStep, hi]
  cases h : (st'.1 i).numdate_given with
  | none => simp [setN]
  | some dd => by_cases hb : (st'.1 i).bad_branch <;> simp [hb, setN]

theorem dateStep_logmono (P : Params) : LogMono (dateStep P) := by
  intro p i cs st x hx
  simp only [dateStep]
  cases h : (st.1 i).numdate_given with
  | none => simpa using hx
  | some dd =>
    by_cases hb : (st.1 i).bad_branch <;> simp [hb]
    · exact Or.inl hx
    · exact hx

theorem upStep_local (P : Params) : LocalStep (upStep P) := by
  intro p i cs st j hj
  simp only [upStep]
  by_cases h : cs.isEmpty <;>
    by_cases h2 : (gatherMsgs P.peak st.1 cs).isEmpty <;> simp [h, h2, setN, hj]

theorem gatherMsgs_congr (peak : Dist → ℚ) {s s' : Store} {cs : List ℕ}
    (h : ∀ c ∈ cs, s c = s' c) : gatherMsgs peak s cs = gatherMsgs peak s' cs := by
  unfold gatherMsgs
  exact List.filterMap_congr fun c hc => by rw [h c hc]

theorem upStep_dep (P : Params) : ChildSelfDep (upStep P) := by
  intro p i cs st st' hc hi
  simp only [upStep, hi, gatherMsgs_congr P.peak hc]
  by_cases h : cs.isEmpty <;>
    by_cases h2 : (gatherMsgs P.peak st'.1 cs).isEmpty <;> simp [h, h2, setN]

theorem upStep_logconst (P : Params) : LogConst (upStep P) := by
  intro p i cs st
  simp only [upStep]
  by_cases h : cs.isEmpty <;>
    by_cases h2 : (gatherMsgs P.peak st.1 cs).isEmpty <;> simp [h, h2]

theorem downStep_local : LocalStep downStep := by
  intro p i cs st j hj
  cases p <;> simp [downStep, setN, hj]

theorem downStep_dep : ParentSelfDep downStep := by
  intro p i cs st st' hp hi
  cases p with
  | none => simp [downStep, setN, hi]
  | some r => simp [downStep, setN, hi, hp r rfl]

theorem downStep_logconst : LogConst downStep := by
  intro p i cs st
  cases p <;> simp [downStep]

theorem finalStep_local (P : Params) : LocalStep (finalStep P) := by
  intro p i cs st j hj
  cases p <;> simp [finalStep, setN, hj]

theorem finalStep_dep (P : Params) : ParentSelfDep (finalStep P) := by
  intro p i cs st st' hp hi
  cases p with
  | none => simp [finalStep, setN, hi]
  | some r => simp [finalStep, setN, hi, hp r rfl]

theorem finalStep_logconst (P : Params) : LogConst (finalStep P) := by
  intro p i cs st
  cases p <;> simp [finalStep]

theorem convertStep_local (P : Params) : LocalStep (convertStep P) := by
  intro p i cs st j hj
  simp [convertStep, setN, hj]

theorem convertStep_dep (P : Params) : ParentSelfDep (convertStep P) := by
  intro p i cs st st' hp hi
  simp [convertStep, setN, hi]

theorem convertStep_logmono (P : Params) : LogMono (convertStep P) := by
  intro p i cs st x hx
  simp only [convertStep]
  by_cases h : get_date P ((st.1 i).time_before_present.getD 0) < 0 <;>
    by_cases hb : (st.1 i).bad_branch = false <;> simp [h, hb] <;>
      first
      | exact Or.inl hx
      | exact hx

/-- Existence of the parent node: when `v` occurs with parent id `r`, some
subtree with root id `r` occurs as well. -/
theorem OccA.parent_occ {par q : Option ℕ} {t v : PTree} (h : OccA par t q v) :
    ∀ r, q = some r →
      par = some r ∨ ∃ q' u, OccA par t q' u ∧ PTree.id u = r := by
  induction h with
  | here p t =>
    intro r hr
    exact Or.inl hr
  | @deeper par t c q v hc h' ih =>
    intro r hr
    rcases ih r hr with h | ⟨q', u, hu, hid⟩
    · right
      refine ⟨par, t, OccA.here par t, ?_⟩
      exact Option.some.inj h
    · right
      exact ⟨q', u, OccA.deeper hc hu, hid⟩

/-- Finalization always assigns `time_before_present` to every node it
visits. -/
theorem final_tbp_isSome (P : Params) (t : PTree) (st : EState)
    (hnd : t.nodes.Nodup) {q : Option ℕ} {u : PTree} (ho : OccA none t q u) :
    (((set_final_dates P t st).1 u.id).time_before_present).isSome := by
  have hv := preFold_visit (finalStep_local P) (finalStep_dep P) t none st hnd
    (by simp) ho
  rw [set_final_dates] at *
  rw [hv]
  cases q with
  | none => simp [finalStep, setN]
  | some p => simp [finalStep, setN]

/-! Claim theorems. -/

/-- C1 (amended): in the downward pass, for every non-root node `n` with
parent `p`, the message from the parent is the convolution of the
multiplied complementary messages with `n`'s branch-length interpolator
with the `inverse_time` flag set to FALSE (the source passes
`inverse_time=False` at line 194, not `True` as the claim states). -/
theorem down_pass_msg_from_parent (t : PTree) (st : EState) (hnd : t.nodes.Nodup)
    {pv : ℕ} {v : PTree} (ho : OccA none t (some pv) v) :
    ((ml_t_root_leaves t st).1 v.id).msg_from_parent
      = .convolve (.multiply (complMsgs ((ml_t_root_leaves t st).1 pv) v.id))
          ((st.1 v.id).branch_length_interpolator) false := by
  have hv := preFold_visit downStep_local downStep_dep t none st hnd (by simp) ho
  have hne : (some pv : Option ℕ) ≠ some v.id := ho.q_ne (by simp) hnd
  rw [ml_t_root_leaves] at *
  rw [hv]
  simp only [downStep, mixS, setN]
  simp [hne]

/-- Fixture: a two-node tree (root 0, leaf 1) with an empty store. -/
def treeRL : PTree := .mk 0 [.mk 1 []]

def stEmpty : EState := (fun _ => ({} : NodeData), [])

/-- C1 counterexample: on the two-node tree, the downward pass stores a
convolution with `inverse_time = false`; the claimed message, convolved
with `inverse_time = true`, differs from it. -/
theorem down_pass_inverse_time_cex :
    ((ml_t_root_leaves treeRL stEmpty).1 1).msg_from_parent
      ≠ .convolve (.multiply (complMsgs ((ml_t_root_leaves treeRL stEmpty).1 0) 1))
          ((stEmpty.1 1).branch_length_interpolator) true := by
  decide

/-- Witness for the amended C1 on the two-node tree. -/
theorem down_pass_msg_from_parent_witness :
    ((ml_t_root_leaves treeRL stEmpty).1 1).msg_from_parent
      = .convolve (.multiply (complMsgs ((ml_t_root_leaves treeRL stEmpty).1 0) 1))
          ((stEmpty.1 1).branch_length_interpolator) false :=
  down_pass_msg_from_parent treeRL stEmpty (by decide)
    (OccA.deeper (List.Mem.head _) (OccA.here (some 0) (.mk 1 [])))

/-- C3: in the upward pass, for every internal node, each child with a
non-None `msg_to_parent` contributes `shifted_x(bli, peak_pos)` when its
message is a delta and the convolution of its message with its
branch-length interpolator otherwise, keyed by child in
`msgs_from_leaves`; if no child contributed, `msg_to_parent` is left
as-is, and otherwise it becomes the multiply of the stored messages. -/
theorem up_pass_messages (P : Params) (t : PTree) (st : EState)
    (hnd : t.nodes.Nodup) {q : Option ℕ} {v : PTree} (ho : OccA none t q v)
    (hchild : v.children ≠ []) :
    ((ml_t_leaves_root P t st).1 v.id).msgs_from_leaves
        = gatherMsgs P.peak (ml_t_leaves_root P t st).1 v.childIds
    ∧ (gatherMsgs P.peak (ml_t_leaves_root P t st).1 v.childIds = [] →
        ((ml_t_leaves_root P t st).1 v.id).msg_to_parent = (st.1 v.id).msg_to_parent)
    ∧ (gatherMsgs P.peak (ml_t_leaves_root P t st).1 v.childIds ≠ [] →
        ((ml_t_leaves_root P t st).1 v.id).msg_to_parent
          = .multiply ((gatherMsgs P.peak (ml_t_leaves_root P t st).1 v.childIds).map Prod.snd)) := by
  have hv := postFold_visit (upStep_local P) (upStep_dep P) t none st hnd ho
  have hvnd : v.nodes.Nodup := ho.nodup hnd
  have hnc : v.id ∉ v.childIds := PTree.id_not_mem_childIds hvnd
  have hcne : v.childIds.isEmpty = false := by
    cases v with
    | mk i cs =>
      simp only [PTree.children_mk] at hchild
      cases cs with
      | nil => exact absurd rfl hchild
      | cons a as => simp [PTree.childIds]
  have hmix : gatherMsgs P.peak
        (mixC st.1 v.childIds (postFold (upStep P) none t st).1) v.childIds
      = gatherMsgs P.peak (postFold (upStep P) none t st).1 v.childIds := by
    apply gatherMsgs_congr
    intro c hc
    simp only [mixC]
    rw [if_pos hc]
  have hmixv : (mixC st.1 v.childIds (postFold (upStep P) none t st).1) v.id = st.1 v.id := by
    simp only [mixC]
    rw [if_neg hnc]
  rw [ml_t_leaves_root] at *
  rw [hv]
  cases hgl : gatherMsgs P.peak (postFold (upStep P) none t st).1 v.childIds with
  | nil =>
    refine ⟨?_, fun _ => ?_, fun hne => absurd rfl hne⟩
    · simp [upStep, hcne, hmix, hgl, setN, hmixv]
    · simp [upStep, hcne, hmix, hgl, setN, hmixv]
  | cons m ms =>
    refine ⟨?_, fun h => by simp [hgl] at h, fun _ => ?_⟩
    · simp [upStep, hcne, hmix, hgl, setN, hmixv]
    · simp [upStep, hcne, hmix, hgl, setN, hmixv]

/-- C4: during finalization, for every non-root node `n` with parent `p`,
the joint posterior is `n`'s branch-length interpolator shifted by minus
`p.time_before_present`, rescaled by `-1` on the x-axis, multiplied with
`n.msg_to_parent` when that is not None (taken alone otherwise), and
`n.time_before_present` is the peak position of this joint posterior. -/
theorem finalize_joint_posterior (P : Params) (t : PTree) (st : EState)
    (hnd : t.nodes.Nodup) {pv : ℕ} {v : PTree} (ho : OccA none t (some pv) v) :
    ∃ tp, ((set_final_dates P t st).1 pv).time_before_present = some tp
      ∧ ((set_final_dates P t st).1 v.id).joint_lh = jointOf (st.1 v.id) tp
      ∧ ((set_final_dates P t st).1 v.id).time_before_present
          = some (P.peak (((set_final_dates P t st).1 v.id).joint_lh)) := by
  have hv := preFold_visit (finalStep_local P) (finalStep_dep P) t none st hnd (by simp) ho
  have hne : (some pv : Option ℕ) ≠ some v.id := ho.q_ne (by simp) hnd
  have hpocc : ∃ q' u, OccA none t q' u ∧ PTree.id u = pv := by
    rcases ho.parent_occ pv rfl with h | h
    · exact absurd h (by simp)
    · exact h
  rcases hpocc with ⟨q', u, hu, hid⟩
  have hsome := final_tbp_isSome P t st hnd hu
  rw [hid] at hsome
  rcases Option.isSome_iff_exists.mp hsome with ⟨tp, htp⟩
  rw [set_final_dates] at htp ⊢
  refine ⟨tp, htp, ?_, ?_⟩
  · rw [hv]
    simp only [finalStep, mixS, setN]
    simp [hne, htp]
  · rw [hv]
    simp only [finalStep, mixS, setN]
    simp [hne, htp]

/-- C9: for a non-root node whose `msg_to_parent` is None, finalization
computes `marginal_lh` by calling multiply on the pair
`(msg_from_parent, msg_to_parent)` with the None passed through
unguarded, while the joint posterior takes the `msg_to_parent is None`
branch and is the transformed interpolator alone. -/
theorem finalize_marginal_none_unguarded (P : Params) (t : PTree) (st : EState)
    (hnd : t.nodes.Nodup) {pv : ℕ} {v : PTree} (ho : OccA none t (some pv) v)
    (hmsg : (st.1 v.id).msg_to_parent = Dist.pynone) :
    ((set_final_dates P t st).1 v.id).marginal_lh
        = .multiply [(st.1 v.id).msg_from_parent, Dist.pynone]
    ∧ ∃ tp, ((set_final_dates P t st).1 pv).time_before_present = some tp
      ∧ ((set_final_dates P t st).1 v.id).joint_lh
          = Dist.x_rescale (.shifted_x ((st.1 v.id).branch_length_interpolator) (-tp)) (-1) := by
  have hv := preFold_visit (finalStep_local P) (finalStep_dep P) t none st hnd (by simp) ho
  have hne : (some pv : Option ℕ) ≠ some v.id := ho.q_ne (by simp) hnd
  have hpocc : ∃ q' u, OccA none t q' u ∧ PTree.id u = pv := by
    rcases ho.parent_occ pv rfl with h | h
    · exact absurd h (by simp)
    · exact h
  rcases hpocc with ⟨q', u, hu, hid⟩
  have hsome := final_tbp_isSome P t st hnd hu
  rw [hid] at hsome
  rcases Option.isSome_iff_exists.mp hsome with ⟨tp, htp⟩
  rw [set_final_dates] at htp ⊢
  refine ⟨?_, tp, htp, ?_⟩
  · rw [hv]
    simp only [finalStep, mixS, setN]
    simp [hne, hmsg]
  · rw [hv]
    simp only [finalStep, mixS, setN]
    simp [hne, htp, hmsg, jointOf]

/-- C6 (amended): during finalization, every non-root node's
`branch_length` is set to `p.time_before_present - n.time_before_present`;
no log message is emitted by finalization, in particular no optimization
error is logged when that value is negative on a non-bad branch — the
source contains no such check (`convert_dates` later warns based on the
node's date instead). -/
theorem finalize_branch_length (P : Params) (t : PTree) (st : EState)
    (hnd : t.nodes.Nodup) {pv : ℕ} {v : PTree} (ho : OccA none t (some pv) v) :
    (∃ tp tn, ((set_final_dates P t st).1 pv).time_before_present = some tp
      ∧ ((set_final_dates P t st).1 v.id).time_before_present = some tn
      ∧ ((set_final_dates P t st).1 v.id).branch_length = some (tp - tn))
    ∧ (set_final_dates P t st).2 = st.2 := by
  have hv := preFold_visit (finalStep_local P) (finalStep_dep P) t none st hnd (by simp) ho
  have hne : (some pv : Option ℕ) ≠ some v.id := ho.q_ne (by simp) hnd
  have hpocc : ∃ q' u, OccA none t q' u ∧ PTree.id u = pv := by
    rcases ho.parent_occ pv rfl with h | h
    · exact absurd h (by simp)
    · exact h
  rcases hpocc with ⟨q', u, hu, hid⟩
  have hsome := final_tbp_isSome P t st hnd hu
  rw [hid] at hsome
  rcases Option.isSome_iff_exists.mp hsome with ⟨tp, htp⟩
  constructor
  · rw [set_final_dates] at htp ⊢
    refine ⟨tp, P.peak (jointOf (st.1 v.id) tp), ?_, ?_, ?_⟩
    · exact htp
    · rw [hv]
      simp only [finalStep, mixS, setN]
      simp [hne, htp]
    · rw [hv]
      simp only [finalStep, mixS, setN]
      simp [hne, htp]
  · rw [set_final_dates]
    exact preFold_logconst (finalStep_logconst P) none t st

/-- C10: after finalization (and still after calendar conversion), every
node — root and non-root alike — satisfies
`clock_length = branch_length`; both are written together by
`_set_final_dates` line 243 and no later engine operation separates them. -/
theorem clock_length_eq_branch_length (P : Params) (t : PTree) (st : EState)
    (hnd : t.nodes.Nodup) {q : Option ℕ} {v : PTree} (ho : OccA none t q v) :
    ((time_tree_passes P t st).1 v.id).clock_length
      = ((time_tree_passes P t st).1 v.id).branch_length := by
  have hpres : ∀ p i cs st' j,
      (fun d => (d.clock_length, d.branch_length)) (((convertStep P) p i cs st').1 j)
        = (fun d => (d.clock_length, d.branch_length)) (st'.1 j) := by
    intro p i cs st' j
    by_cases hj : j = i
    · subst hj
      simp [convertStep, setN]
    · simp [convertStep, setN, hj]
  rw [time_tree_passes, convert_dates]
  have hconv := @preFold_preserve _ (convertStep P)
    (fun d => (d.clock_length, d.branch_length)) hpres none t
    (set_final_dates P t (ml_t_root_leaves t (ml_t_leaves_root P t st))) v.id
  have hcl := congrArg Prod.fst hconv
  have hbl := congrArg Prod.snd hconv
  simp only at hcl hbl
  rw [hcl, hbl]
  have hv := preFold_visit (finalStep_local P) (finalStep_dep P) t none
    (ml_t_root_leaves t (ml_t_leaves_root P t st)) hnd (by simp) ho
  rw [set_final_dates]
  rw [hv]
  cases q with
  | none => simp [finalStep, setN]
  | some p => simp [finalStep, setN]

/-- C5: during date-constraint initialization, a node with
`numdate_given` set and `bad_branch` false receives
`abs_t = (today - numdate_given) * |slope|` and a weight-1 delta
`msg_to_parent` at `abs_t`; every other node has `abs_t` and
`msg_to_parent` cleared to None. -/
theorem init_date_constraints_seeding (P : Params) (t : PTree) (st : EState)
    (hnd : t.nodes.Nodup) {q : Option ℕ} {v : PTree} (ho : OccA none t q v) :
    (∀ dd, (st.1 v.id).numdate_given = some dd → (st.1 v.id).bad_branch = false →
        ((init_date_constraints P t st).1 v.id).abs_t = some ((P.now - dd) * |P.slope|)
        ∧ ((init_date_constraints P t st).1 v.id).msg_to_parent
            = .delta ((P.now - dd) * |P.slope|) 1)
    ∧ ((st.1 v.id).numdate_given = none ∨ (st.1 v.id).bad_branch = true →
        ((init_date_constraints P t st).1 v.id).abs_t = none
        ∧ ((init_date_constraints P t st).1 v.id).msg_to_parent = Dist.pynone) := by
  have hbli : ∀ p i cs st' j,
      (fun d => (d.numdate_given, d.bad_branch)) ((bliStep p i cs st').1 j)
        = (fun d => (d.numdate_given, d.bad_branch)) (st'.1 j) := by
    intro p i cs st' j
    by_cases hj : j = i
    · subst hj
      cases p <;> simp [bliStep, setN]
    · cases p <;> simp [bliStep, setN, hj]
  have hpr := @preFold_preserve _ bliStep
    (fun d => (d.numdate_given, d.bad_branch)) hbli none t st v.id
  have hnum := congrArg Prod.fst hpr
  have hbad := congrArg Prod.snd hpr
  simp only at hnum hbad
  have hv := preFold_visit (dateStep_local P) (dateStep_dep P) t none
    (preFold bliStep none t st) hnd (by simp) ho
  have hqne : q ≠ some v.id := ho.q_ne (by simp) hnd
  have hmixv : mixS (preFold bliStep none t st).1 q
      (preFold (dateStep P) none t (preFold bliStep none t st)).1 v.id
      = (preFold bliStep none t st).1 v.id := by
    simp only [mixS]
    rw [if_neg hqne]
  rw [init_date_constraints]
  rw [hv]
  constructor
  · intro dd hdd hb
    have h1 : ((preFold bliStep none t st).1 v.id).numdate_given = some dd := by
      rw [hnum, hdd]
    have h2 : ((preFold bliStep none t st).1 v.id).bad_branch = false := by
      rw [hbad, hb]
    constructor
    · simp [dateStep, hmixv, h1, h2, setN]
    · simp [dateStep, hmixv, h1, h2, setN]
  · intro hcase
    rcases hcase with hdd | hb
    · have h1 : ((preFold bliStep none t st).1 v.id).numdate_given = none := by
        rw [hnum, hdd]
      constructor
      · simp [dateStep, hmixv, h1, setN]
      · simp [dateStep, hmixv, h1, setN]
    · have h2 : ((preFold bliStep none t st).1 v.id).bad_branch = true := by
        rw [hbad, hb]
      cases h1 : ((preFold bliStep none t st).1 v.id).numdate_given with
      | none =>
        constructor
        · simp [dateStep, hmixv, h1, setN]
        · simp [dateStep, hmixv, h1, setN]
      | some dd =>
        constructor
        · simp [dateStep, hmixv, h1, h2, setN]
        · simp [dateStep, hmixv, h1, h2, setN]

/-- C8: during initialization, a dated node that is marked `bad_branch`
is demoted to undated — `numdate_given`, `abs_t`, `msg_to_parent`
cleared — and a warning is printed; the run continues normally. -/
theorem init_bad_branch_demotion (P : Params) (t : PTree) (st : EState)
    (hnd : t.nodes.Nodup) {q : Option ℕ} {v : PTree} (ho : OccA none t q v)
    (dd : ℚ) (hdd : (st.1 v.id).numdate_given = some dd)
    (hb : (st.1 v.id).bad_branch = true) :
    ((init_date_constraints P t st).1 v.id).numdate_given = none
    ∧ ((init_date_constraints P t st).1 v.id).abs_t = none
    ∧ ((init_date_constraints P t st).1 v.id).msg_to_parent = Dist.pynone
    ∧ LogMsg.badBranchExcluded ∈ (init_date_constraints P t st).2 := by
  have hbli : ∀ p i cs st' j,
      (fun d => (d.numdate_given, d.bad_branch)) ((bliStep p i cs st').1 j)
        = (fun d => (d.numdate_given, d.bad_branch)) (st'.1 j) := by
    intro p i cs st' j
    by_cases hj : j = i
    · subst hj
      cases p <;> simp [bliStep, setN]
    · cases p <;> simp [bliStep, setN, hj]
  have hpr := @preFold_preserve _ bliStep
    (fun d => (d.numdate_given, d.bad_branch)) hbli none t st v.id
  have hnum := congrArg Prod.fst hpr
  have hbad := congrArg Prod.snd hpr
  simp only at hnum hbad
  have h1 : ((preFold bliStep none t st).1 v.id).numdate_given = some dd := by
    rw [hnum, hdd]
  have h2 : ((preFold bliStep none t st).1 v.id).bad_branch = true := by
    rw [hbad, hb]
  have hv := preFold_visit (dateStep_local P) (dateStep_dep P) t none
    (preFold bliStep none t st) hnd (by simp) ho
  have hqne : q ≠ some v.id := ho.q_ne (by simp) hnd
  have hmixv : mixS (preFold bliStep none t st).1 q
      (preFold (dateStep P) none t (preFold bliStep none t st)).1 v.id
      = (preFold bliStep none t st).1 v.id := by
    simp only [mixS]
    rw [if_neg hqne]
  refine ⟨?_, ?_, ?_, ?_⟩
  · rw [init_date_constraints, hv]
    simp [dateStep, hmixv, h1, h2, setN]
  · rw [init_date_constraints, hv]
    simp [dateStep, hmixv, h1, h2, setN]
  · rw [init_date_constraints, hv]
    simp [dateStep, hmixv, h1, h2, setN]
  · rw [init_date_constraints]
    apply preFold_logvisit (dateStep_local P) (dateStep_logmono P) t none
      (preFold bliStep none t st) hnd ho
    intro p cs st' hself
    simp [dateStep, hself, h1, h2]

/-- C7 (amended): when calendar conversion produces a negative
`years_bp` for a non-bad-branch node, a warning is logged and the
inference continues with `numdate = today - years_bp` — a date lying in
the future; the value is NOT clamped to today. -/
theorem convert_dates_future_warn (P : Params) (t : PTree) (st : EState)
    (hnd : t.nodes.Nodup) {q : Option ℕ} {v : PTree} (ho : OccA none t q v)
    (tb : ℚ) (htb : (st.1 v.id).time_before_present = some tb)
    (hneg : get_date P tb < 0) (hb : (st.1 v.id).bad_branch = false) :
    LogMsg.laterThanTodayError ∈ (convert_dates P t st).2
    ∧ ((convert_dates P t st).1 v.id).numdate = some (P.now - get_date P tb) := by
  have hqne : q ≠ some v.id := ho.q_ne (by simp) hnd
  constructor
  · rw [convert_dates]
    apply preFold_logvisit (convertStep_local P) (convertStep_logmono P) t none st hnd ho
    intro p cs st' hself
    simp [convertStep, hself, htb, hneg, hb]
  · have hv := preFold_visit (convertStep_local P) (convertStep_dep P) t none st hnd
      (by simp) ho
    rw [convert_dates, hv]
    have hmixv : mixS st.1 q (preFold (convertStep P) none t st).1 v.id = st.1 v.id := by
      simp only [mixS]
      rw [if_neg hqne]
    simp [convertStep, hmixv, htb, setN]

/-- C2: `make_time_tree` as written dispatches every pass to the
module-global `myTree` and never touches `self`: its result is the same
for any two instances given the same global, it raises `NameError`
(modelled as `Except.error`) when no global `myTree` is bound, and with a
global bound it runs the four passes on the global's tree — the intended
`self`-bound behaviour `make_time_tree_spec` is reached only when the
global happens to be `self`. -/
theorem make_time_tree_global_binding :
    (∀ (g : Option Instance) (a b : Instance), make_time_tree g a = make_time_tree g b)
    ∧ (∀ a : Instance, make_time_tree none a = Except.error ())
    ∧ (∀ g a : Instance, make_time_tree (some g) a = Except.ok (make_time_tree_spec g)) :=
  ⟨fun _ _ _ => rfl, fun _ => rfl, fun _ _ => rfl⟩

/-! Concrete fixtures for witnesses and counterexamples. -/

/-- Concrete peak extractor for the examples: the position of a delta,
10 for a rescaled distribution, 0 otherwise. -/
def peakEx : Dist → ℚ
  | .delta p _ => p
  | .x_rescale _ _ => 10
  | _ => 0

def PEx : Params :=
  { peak := peakEx, slope := 1, intercept := 0, now := 2026, one_mutation := 1/1000 }

theorem occ_leaf : OccA none treeRL (some 0) (.mk 1 []) :=
  OccA.deeper (List.Mem.head _) (OccA.here (some 0) (.mk 1 []))

theorem occ_root : OccA none treeRL none treeRL := OccA.here none treeRL

def stUp : EState :=
  (fun j => if j = 1 then
      { msg_to_parent := .delta 3 1, branch_length_interpolator := .interp 1 }
    else {}, [])

def stFin : EState :=
  (fun j => if j = 0 then { msg_to_parent := .delta 5 1 }
    else { branch_length_interpolator := .interp 1 }, [])

def stInitG : EState :=
  (fun j => if j = 1 then { numdate_given := some 2020 } else {}, [])

def stInitB : EState :=
  (fun j => if j = 1 then { numdate_given := some 2020, bad_branch := true } else {}, [])

def stConv : EState :=
  (fun j => if j = 1 then { time_before_present := some 1 }
    else { time_before_present := some 0 }, [])

/-- Witness for C3 on the two-node tree with a dated leaf. -/
theorem up_pass_messages_witness :
    ((ml_t_leaves_root PEx treeRL stUp).1 0).msgs_from_leaves
        = gatherMsgs PEx.peak (ml_t_leaves_root PEx treeRL stUp).1 [1]
    ∧ (gatherMsgs PEx.peak (ml_t_leaves_root PEx treeRL stUp).1 [1] = [] →
        ((ml_t_leaves_root PEx treeRL stUp).1 0).msg_to_parent = (stUp.1 0).msg_to_parent)
    ∧ (gatherMsgs PEx.peak (ml_t_leaves_root PEx treeRL stUp).1 [1] ≠ [] →
        ((ml_t_leaves_root PEx treeRL stUp).1 0).msg_to_parent
          = .multiply ((gatherMsgs PEx.peak (ml_t_leaves_root PEx treeRL stUp).1 [1]).map
              Prod.snd)) :=
  up_pass_messages PEx treeRL stUp (by decide) occ_root (fun h => List.noConfusion h)

/-- Witness for C4 on the two-node tree. -/
theorem finalize_joint_posterior_witness :
    ∃ tp, ((set_final_dates PEx treeRL stFin).1 0).time_before_present = some tp
      ∧ ((set_final_dates PEx treeRL stFin).1 1).joint_lh = jointOf (stFin.1 1) tp
      ∧ ((set_final_dates PEx treeRL stFin).1 1).time_before_present
          = some (PEx.peak (((set_final_dates PEx treeRL stFin).1 1).joint_lh)) :=
  finalize_joint_posterior PEx treeRL stFin (by decide) occ_leaf

/-- Witness for C9 on the two-node tree, whose leaf has no date
constraint and hence `msg_to_parent = None` going into finalization. -/
theorem finalize_marginal_none_unguarded_witness :
    ((set_final_dates PEx treeRL stFin).1 1).marginal_lh
        = .multiply [(stFin.1 1).msg_from_parent, Dist.pynone]
    ∧ ∃ tp, ((set_final_dates PEx treeRL stFin).1 0).time_before_present = some tp
      ∧ ((set_final_dates PEx treeRL stFin).1 1).joint_lh
          = Dist.x_rescale (.shifted_x ((stFin.1 1).branch_length_interpolator) (-tp)) (-1) :=
  finalize_marginal_none_unguarded PEx treeRL stFin (by decide) occ_leaf (by decide)

/-- Witness for the amended C6 on the two-node tree. -/
theorem finalize_branch_length_witness :
    (∃ tp tn, ((set_final_dates PEx treeRL stFin).1 0).time_before_present = some tp
      ∧ ((set_final_dates PEx treeRL stFin).1 1).time_before_present = some tn
      ∧ ((set_final_dates PEx treeRL stFin).1 1).branch_length = some (tp - tn))
    ∧ (set_final_dates PEx treeRL stFin).2 = stFin.2 :=
  finalize_branch_length PEx treeRL stFin (by decide) occ_leaf

/-- Parameters with `intercept = 100`, keeping every inferred date in
the past. -/
def PFar : Params :=
  { peak := peakEx, slope := 1, intercept := 100, now := 2026, one_mutation := 1/1000 }

/-- C6 counterexample: running the complete pass sequence, the leaf's
`branch_length` comes out negative (`-5`) on a non-bad branch, yet no
log entry is emitted by finalization — nor by any other pass — so the
optimization error the claim requires is never logged. -/
theorem finalize_no_negative_branch_log_cex :
    ((time_tree_passes PFar treeRL stFin).1 1).branch_length = some (-5)
    ∧ (stFin.1 1).bad_branch = false
    ∧ (time_tree_passes PFar treeRL stFin).2 = [] := by
  refine ⟨?_, by decide, ?_⟩
  · norm_num [time_tree_passes, convert_dates, set_final_dates, ml_t_root_leaves,
      ml_t_leaves_root, preFold, preFoldList, postFold, postFoldList,
      upStep, downStep, finalStep, convertStep, gatherMsgs, sendMessage, complMsgs,
      setN, jointOf, get_date, peakEx, PFar, stFin, treeRL, PTree.id, Dist.is_delta]
  · norm_num [time_tree_passes, convert_dates, set_final_dates, ml_t_root_leaves,
      ml_t_leaves_root, preFold, preFoldList, postFold, postFoldList,
      upStep, downStep, finalStep, convertStep, gatherMsgs, sendMessage, complMsgs,
      setN, jointOf, get_date, peakEx, PFar, stFin, treeRL, PTree.id, Dist.is_delta]

/-- Witness for C10 on the two-node tree, after the full pass sequence. -/
theorem clock_length_eq_branch_length_witness :
    ((time_tree_passes PEx treeRL stFin).1 1).clock_length
      = ((time_tree_passes PEx treeRL stFin).1 1).branch_length :=
  clock_length_eq_branch_length PEx treeRL stFin (by decide) occ_leaf

/-- Witness for C5 on the two-node tree with a dated, good leaf. -/
theorem init_date_constraints_seeding_witness :
    (∀ dd, (stInitG.1 1).numdate_given = some dd → (stInitG.1 1).bad_branch = false →
        ((init_date_constraints PEx treeRL stInitG).1 1).abs_t
            = some ((PEx.now - dd) * |PEx.slope|)
        ∧ ((init_date_constraints PEx treeRL stInitG).1 1).msg_to_parent
            = .delta ((PEx.now - dd) * |PEx.slope|) 1)
    ∧ ((stInitG.1 1).numdate_given = none ∨ (stInitG.1 1).bad_branch = true →
        ((init_date_constraints PEx treeRL stInitG).1 1).abs_t = none
        ∧ ((init_date_constraints PEx treeRL stInitG).1 1).msg_to_parent = Dist.pynone) :=
  init_date_constraints_seeding PEx treeRL stInitG (by decide) occ_leaf

/-- Witness for C8 on the two-node tree with a dated leaf marked bad. -/
theorem init_bad_branch_demotion_witness :
    ((init_date_constraints PEx treeRL stInitB).1 1).numdate_given = none
    ∧ ((init_date_constraints PEx treeRL stInitB).1 1).abs_t = none
    ∧ ((init_date_constraints PEx treeRL stInitB).1 1).msg_to_parent = Dist.pynone
    ∧ LogMsg.badBranchExcluded ∈ (init_date_constraints PEx treeRL stInitB).2 :=
  init_bad_branch_demotion PEx treeRL stInitB (by decide) occ_leaf 2020 (by decide) (by decide)

/-- Witness for the amended C7 on the two-node tree. -/
theorem convert_dates_future_warn_witness :
    LogMsg.laterThanTodayError ∈ (convert_dates PEx treeRL stConv).2
    ∧ ((convert_dates PEx treeRL stConv).1 1).numdate = some (PEx.now - get_date PEx 1) :=
  convert_dates_future_warn PEx treeRL stConv (by decide) occ_leaf 1 (by decide)
    (by norm_num [get_date, PEx]) (by decide)

/-- C7 counterexample: the leaf gets `years_bp = -1 < 0` on a non-bad
branch; the warning is logged but `numdate` is set to `2027`, in the
future — it is NOT clamped to today (`2026`). -/
theorem convert_dates_no_clamp_cex :
    get_date PEx ((stConv.1 1).time_before_present.getD 0) < 0
    ∧ (stConv.1 1).bad_branch = false
    ∧ LogMsg.laterThanTodayError ∈ (convert_dates PEx treeRL stConv).2
    ∧ ((convert_dates PEx treeRL stConv).1 1).numdate = some 2027
    ∧ ((convert_dates PEx treeRL stConv).1 1).numdate ≠ some PEx.now := by
  refine ⟨?_, by decide, ?_, ?_, ?_⟩
  · norm_num [get_date, PEx, stConv]
  · norm_num [convert_dates, preFold, preFoldList, convertStep, setN, get_date,
      PEx, stConv, treeRL, PTree.id]
  · norm_num [convert_dates, preFold, preFoldList, convertStep, setN, get_date,
      PEx, stConv, treeRL, PTree.id]
  · norm_num [convert_dates, preFold, preFoldList, convertStep, setN, get_date,
      PEx, stConv, treeRL, PTree.id]

end ClockTree
